import Mathlib

/-
Verification of the Thomson-problem relaxation solver (thomson.py).

The solver is embedded shallowly: Python float arithmetic is modelled by
exact real arithmetic, the mutable list of electron objects by a Lean
`List electron` threaded through the iteration phases, and the unbounded
`while not converged` loop by the inductive run relation `LoopRun`.
Random sampling is modelled by an explicit stream `raws : ℕ → vec3` of the
raw vectors drawn during initialization.
-/

/-- Modelled from the spec: the external vector-math collaborator
(`vector3` module, absent from src/) provides 3-component real vectors
with addition, subtraction, scalar multiplication, dot product,
Euclidean magnitude and normalization. -/
@[ext] structure vec3 where
  x : ℝ
  y : ℝ
  z : ℝ

namespace vec3

def vzero : vec3 := ⟨0, 0, 0⟩

instance : Zero vec3 := ⟨vzero⟩

instance : Add vec3 := ⟨fun a b => ⟨a.x + b.x, a.y + b.y, a.z + b.z⟩⟩

instance : Neg vec3 := ⟨fun a => ⟨-a.x, -a.y, -a.z⟩⟩

instance : Sub vec3 := ⟨fun a b => ⟨a.x - b.x, a.y - b.y, a.z - b.z⟩⟩

/-- Modelled from the spec: scalar multiplication `v * c` of a vector by a real. -/
instance : HMul vec3 ℝ vec3 := ⟨fun v c => ⟨v.x * c, v.y * c, v.z * c⟩⟩

@[simp] lemma zero_x : (0 : vec3).x = 0 := rfl

@[simp] lemma zero_y : (0 : vec3).y = 0 := rfl

@[simp] lemma zero_z : (0 : vec3).z = 0 := rfl

@[simp] lemma add_x (a b : vec3) : (a + b).x = a.x + b.x := rfl

@[simp] lemma add_y (a b : vec3) : (a + b).y = a.y + b.y := rfl

@[simp] lemma add_z (a b : vec3) : (a + b).z = a.z + b.z := rfl

@[simp] lemma neg_x (a : vec3) : (-a).x = -a.x := rfl

@[simp] lemma neg_y (a : vec3) : (-a).y = -a.y := rfl

@[simp] lemma neg_z (a : vec3) : (-a).z = -a.z := rfl

@[simp] lemma sub_x (a b : vec3) : (a - b).x = a.x - b.x := rfl

@[simp] lemma sub_y (a b : vec3) : (a - b).y = a.y - b.y := rfl

@[simp] lemma sub_z (a b : vec3) : (a - b).z = a.z - b.z := rfl

@[simp] lemma smul_x (v : vec3) (c : ℝ) : (v * c).x = v.x * c := rfl

@[simp] lemma smul_y (v : vec3) (c : ℝ) : (v * c).y = v.y * c := rfl

@[simp] lemma smul_z (v : vec3) (c : ℝ) : (v * c).z = v.z * c := rfl

instance : AddCommGroup vec3 where
  add_assoc a b c := by ext <;> simp <;> ring
  zero_add a := by ext <;> simp
  add_zero a := by ext <;> simp
  add_comm a b := by ext <;> simp <;> ring
  neg_add_cancel a := by ext <;> simp
  sub_eq_add_neg a b := by ext <;> simp <;> ring
  nsmul := nsmulRec
  zsmul := zsmulRec

@[simp] lemma zero_smul' (c : ℝ) : (0 : vec3) * c = 0 := by
  ext <;> simp

@[simp] lemma smul_zero' (v : vec3) : v * (0 : ℝ) = 0 := by
  ext <;> simp

@[simp] lemma smul_one' (v : vec3) : v * (1 : ℝ) = v := by
  ext <;> simp

/-- Modelled from the spec: dot product of two vectors. -/
def dot (a b : vec3) : ℝ := a.x * b.x + a.y * b.y + a.z * b.z

@[simp] lemma dot_zero_left (b : vec3) : dot 0 b = 0 := by
  simp [dot]

@[simp] lemma dot_zero_right (a : vec3) : dot a 0 = 0 := by
  simp [dot]

lemma dot_sub_left (a b c : vec3) : dot (a - b) c = dot a c - dot b c := by
  simp [dot]; ring

lemma dot_add_left (a b c : vec3) : dot (a + b) c = dot a c + dot b c := by
  simp [dot]; ring

lemma dot_smul_left (a : vec3) (r : ℝ) (c : vec3) : dot (a * r) c = r * dot a c := by
  simp [dot]; ring

lemma dot_smul_right (a b : vec3) (r : ℝ) : dot a (b * r) = dot a b * r := by
  simp [dot]; ring

lemma dot_nonneg_self (v : vec3) : 0 ≤ dot v v := by
  have h : dot v v = v.x ^ 2 + v.y ^ 2 + v.z ^ 2 := by simp [dot]; ring
  rw [h]
  positivity

/-- Modelled from the spec: Euclidean magnitude of a vector. -/
noncomputable def mag (v : vec3) : ℝ := Real.sqrt (v.x ^ 2 + v.y ^ 2 + v.z ^ 2)

/-- Modelled from the spec: normalization of a vector (undefined behaviour on the
zero vector; with real-number division conventions it sends `0` to `0`). -/
noncomputable def normalized (v : vec3) : vec3 := v * (1 / mag v)

lemma mag_zero : mag (0 : vec3) = 0 := by
  simp [mag]

lemma mag_eq_zero_iff (v : vec3) : mag v = 0 ↔ v = 0 := by
  constructor
  · intro h
    have hs : v.x ^ 2 + v.y ^ 2 + v.z ^ 2 = 0 := by
      have hnn : 0 ≤ v.x ^ 2 + v.y ^ 2 + v.z ^ 2 := by positivity
      have := Real.sqrt_eq_zero hnn |>.mp h
      exact this
    have hx : v.x = 0 := by nlinarith [sq_nonneg v.x, sq_nonneg v.y, sq_nonneg v.z]
    have hy : v.y = 0 := by nlinarith [sq_nonneg v.x, sq_nonneg v.y, sq_nonneg v.z]
    have hz : v.z = 0 := by nlinarith [sq_nonneg v.x, sq_nonneg v.y, sq_nonneg v.z]
    ext <;> simp [hx, hy, hz]
  · intro h
    subst h
    exact mag_zero

lemma mag_nonneg (v : vec3) : 0 ≤ mag v := Real.sqrt_nonneg _

lemma mag_pos (v : vec3) (h : v ≠ 0) : 0 < mag v := by
  rcases lt_or_eq_of_le (mag_nonneg v) with h1 | h1
  · exact h1
  · exact absurd ((mag_eq_zero_iff v).mp h1.symm) h

lemma dot_self_eq_mag_sq (v : vec3) : dot v v = mag v ^ 2 := by
  have hnn : 0 ≤ v.x ^ 2 + v.y ^ 2 + v.z ^ 2 := by positivity
  have : mag v ^ 2 = v.x ^ 2 + v.y ^ 2 + v.z ^ 2 := Real.sq_sqrt hnn
  rw [this]
  simp [dot]; ring

lemma mag_smul (v : vec3) (c : ℝ) : mag (v * c) = |c| * mag v := by
  simp only [mag, smul_x, smul_y, smul_z]
  have h : (v.x * c) ^ 2 + (v.y * c) ^ 2 + (v.z * c) ^ 2
      = c ^ 2 * (v.x ^ 2 + v.y ^ 2 + v.z ^ 2) := by ring
  rw [h, Real.sqrt_mul (sq_nonneg c), Real.sqrt_sq_eq_abs]

lemma mag_normalized (v : vec3) (h : v ≠ 0) : mag (normalized v) = 1 := by
  have hp := mag_pos v h
  rw [normalized, mag_smul]
  rw [abs_of_pos (by positivity : (0:ℝ) < 1 / mag v)]
  field_simp

lemma normalized_of_mag_one (v : vec3) (h : mag v = 1) : normalized v = v := by
  rw [normalized, h]
  simp

lemma normalized_zero : normalized (0 : vec3) = 0 := by
  rw [normalized]
  simp

lemma dot_normalized_self (v : vec3) (h : v ≠ 0) :
    dot (normalized v) (normalized v) = 1 := by
  rw [dot_self_eq_mag_sq, mag_normalized v h]
  norm_num

/-- The tangential projection `w - u * (w · u)` with `u = normalized v` is
orthogonal to `u`, for every `v` (including `v = 0`, where `u = 0`). -/
lemma proj_dot (w v : vec3) :
    dot (w - normalized v * dot w (normalized v)) (normalized v) = 0 := by
  by_cases h : v = 0
  · subst h
    rw [normalized_zero]
    simp
  · rw [dot_sub_left, dot_smul_left, dot_normalized_self v h]
    ring

end vec3

open vec3

/-- A point-charge (class `electron` in thomson.py): a position and a velocity. -/
@[ext] structure electron where
  pos : vec3
  vel : vec3

/-- Default electron used for out-of-range list accesses. -/
def eDefault : electron := ⟨0, 0⟩

/-- `electron.calc_accel` (thomson.py lines 17-26): the pairwise acceleration
contribution on `self` from `other`, with direction `normalized (self.pos - other.pos)`
and magnitude `1 / mag (self.pos - other.pos) ^ 2`. The division is unguarded. -/
noncomputable def electron.calc_accel (self other : electron) : vec3 :=
  normalized (self.pos - other.pos) * (1 / mag (self.pos - other.pos) ^ 2)

/-- Initialization (thomson.py lines 40-49): electron `i` starts at the
normalization of the `i`-th raw random vector, with zero velocity. -/
noncomputable def initElectrons (raws : ℕ → vec3) (n : ℕ) : List electron :=
  (List.range n).map (fun i => ⟨normalized (raws i), 0⟩)

/-- Inner accumulation loop of the force phase (thomson.py lines 59-67):
left fold of `total_electron_accel += e.calc_accel(e2)` over the electron list,
skipping the electron itself.  The Python code skips by object identity
(`if not e == e2`); among the distinct objects of the list this is exactly
the running index `j` matching the outer index `i`. -/
noncomputable def totalAccelAux (e : electron) (i : ℕ) :
    List electron → ℕ → vec3 → vec3
  | [], _, acc => acc
  | e2 :: rest, j, acc =>
      totalAccelAux e i rest (j + 1) (if j = i then acc else acc + e.calc_accel e2)

/-- Total acceleration accumulated for the electron at index `i`. -/
noncomputable def totalAccel (e : electron) (i : ℕ) (es : List electron) : vec3 :=
  totalAccelAux e i es 0 0

/-- Outer loop of the force phase (thomson.py lines 56-69), building
`current_electron_accels` in electron order. -/
noncomputable def accelListAux (all : List electron) :
    List electron → ℕ → List vec3
  | [], _ => []
  | e :: rest, i => totalAccel e i all :: accelListAux all rest (i + 1)

/-- `current_electron_accels` computed for the whole electron list. -/
noncomputable def accelList (es : List electron) : List vec3 :=
  accelListAux es es 0

/-- Velocity update of one electron (thomson.py lines 72-80): add the damped,
relaxed acceleration increment, then remove the radial component of the
velocity along the current (normalized) position. -/
noncomputable def velUpdate (relax : ℝ) (a : vec3) (e : electron) : electron :=
  let v1 := e.vel + (a - a * (0.9 : ℝ)) * relax
  { pos := e.pos, vel := v1 - normalized e.pos * dot v1 (normalized e.pos) }

/-- In-place update of the list entry at index `i` (Python mutates
`electrons[idx_e]` while the rest of the list is unchanged). -/
def setAt (es : List electron) (i : ℕ) (f : electron → electron) : List electron :=
  match es[i]? with
  | some e => es.set i (f e)
  | none => es

/-- The velocity loop `for idx_e in range(len(electrons))` run for indices
`0, 1, ..., k-1` in order, mutating the electron list in place. -/
noncomputable def velPhase (relax : ℝ) (accels : List vec3) :
    ℕ → List electron → List electron
  | 0, es => es
  | k + 1, es => setAt (velPhase relax accels k es) k (velUpdate relax (accels.getD k 0))

/-- Position update of one electron (thomson.py lines 85-88): add the velocity
to the position and renormalize onto the sphere. -/
noncomputable def posUpdate (e : electron) : electron :=
  { pos := normalized (e.pos + e.vel), vel := e.vel }

/-- The position loop (thomson.py lines 83-89): walks the electron list,
recording `old_positions` before and `new_positions` after each in-place
position update.  Returns (updated electrons, old_positions, new_positions). -/
noncomputable def posPhase : List electron → List electron × List vec3 × List vec3
  | [] => ([], [], [])
  | e :: rest =>
      let e' := posUpdate e
      let r := posPhase rest
      (e' :: r.1, e.pos :: r.2.1, e'.pos :: r.2.2)

/-- One full iteration of the `while not converged` loop body
(thomson.py lines 55-100): force accumulation, velocity phase, position phase,
and the per-electron displacement list `convergence_list`.
Returns (updated electrons, convergence_list, new_positions). -/
noncomputable def step (relax : ℝ) (es : List electron) :
    List electron × List ℝ × List vec3 :=
  let accels := accelList es
  let es1 := velPhase relax accels es.length es
  let p := posPhase es1
  (p.1, List.zipWith (fun o np => mag (np - o)) p.2.1 p.2.2, p.2.2)

/-- The convergence test (thomson.py line 99) applied to the iteration that
starts from `es`: every entry of `convergence_list` is strictly below `tolerance`. -/
def convergedAfter (tol relax : ℝ) (es : List electron) : Prop :=
  ∀ d ∈ (step relax es).2.1, d < tol

/-- Operational model of the solver's `while not converged` loop
(thomson.py lines 53-105): from state `es` the loop body runs once; if the
convergence test succeeds the loop exits (after that single iteration) with
the iteration's `new_positions`, otherwise it continues from the updated
electron list.  `LoopRun tol relax es m res` holds when the loop started at
`es` exits after exactly `m` iterations returning `res`. -/
inductive LoopRun (tol relax : ℝ) : List electron → ℕ → List vec3 → Prop where
  | done : ∀ es, convergedAfter tol relax es → LoopRun tol relax es 1 (step relax es).2.2
  | more : ∀ es m res, ¬ convergedAfter tol relax es →
      LoopRun tol relax (step relax es).1 m res → LoopRun tol relax es (m + 1) res

/-- `k`-fold application of the loop body to an electron list. -/
noncomputable def stepIter (relax : ℝ) : ℕ → List electron → List electron
  | 0, es => es
  | k + 1, es => stepIter relax k (step relax es).1

/-- The electron list after `k` completed iterations of a solve with
`n` electrons drawn from the raw random stream `raws`. -/
noncomputable def loopState (raws : ℕ → vec3) (n : ℕ) (relax : ℝ) (k : ℕ) :
    List electron :=
  stepIter relax k (initElectrons raws n)

/-- `solve_thomson n tolerance relaxation_factor` (with random raw vectors
`raws`) returns `res` after `m` iterations. -/
def solveReturns (raws : ℕ → vec3) (n : ℕ) (tol relax : ℝ)
    (m : ℕ) (res : List vec3) : Prop :=
  LoopRun tol relax (initElectrons raws n) m res

/-- The sum, over every other electron `e2` of the list (running index `j`
distinct from `i`), of the spec's pairwise contribution
`normalize(e.position - e2.position)` scaled by `1 / |e.position - e2.position|^2`. -/
noncomputable def specSumFrom (e : electron) (i : ℕ) : List electron → ℕ → vec3
  | [], _ => 0
  | e2 :: rest, j =>
      (if j = i then 0
       else normalized (e.pos - e2.pos) * (1 / mag (e.pos - e2.pos) ^ 2))
      + specSumFrom e i rest (j + 1)

/-- The spec's two-phase iteration: compute every acceleration from the
immutable snapshot `es` of the prior positions, then apply every velocity
and position update from that same snapshot. -/
noncomputable def twoPhaseStep (relax : ℝ) (es : List electron) : List electron :=
  List.zipWith (fun e a => posUpdate (velUpdate relax a e)) es (accelList es)

/-- The position loop of the iteration starting from `es` only normalizes
nonzero vectors (`pos + vel` is nonzero for every electron as it stands
after the velocity phase). -/
def nondegenerate (relax : ℝ) (es : List electron) : Prop :=
  ∀ e ∈ velPhase relax (accelList es) es.length es, e.pos + e.vel ≠ 0

lemma posPhase_fst : ∀ l : List electron, (posPhase l).1 = l.map posUpdate := by
  intro l
  induction l with
  | nil => rfl
  | cons e rest ih => simp [posPhase, ih]

lemma posPhase_snd_fst : ∀ l : List electron, (posPhase l).2.1 = l.map electron.pos := by
  intro l
  induction l with
  | nil => rfl
  | cons e rest ih => simp [posPhase, ih]

lemma posPhase_snd_snd :
    ∀ l : List electron, (posPhase l).2.2 = l.map (fun e => (posUpdate e).pos) := by
  intro l
  induction l with
  | nil => rfl
  | cons e rest ih => simp [posPhase, ih]

lemma setAt_length (es : List electron) (i : ℕ) (f : electron → electron) :
    (setAt es i f).length = es.length := by
  cases h : es[i]? <;> simp [setAt, h]

lemma velPhase_length (relax : ℝ) (accels : List vec3) :
    ∀ (k : ℕ) (es : List electron), (velPhase relax accels k es).length = es.length := by
  intro k
  induction k with
  | zero => intro es; rfl
  | succ k ih => intro es; simp [velPhase, setAt_length, ih]

lemma setAt_getElem? (es : List electron) (i : ℕ) (f : electron → electron) :
    (setAt es i f)[i]? = es[i]?.map f := by
  cases h : es[i]? with
  | none => simp [setAt, h]
  | some e =>
    have hlt : i < es.length := by
      by_contra hle
      push_neg at hle
      rw [List.getElem?_eq_none hle] at h
      cases h
    simp [setAt, h, List.getElem?_set_eq_of_lt _ hlt]

lemma setAt_getElem?_ne (es : List electron) (i j : ℕ) (f : electron → electron)
    (h : j ≠ i) : (setAt es i f)[j]? = es[j]? := by
  cases h' : es[i]? with
  | none => simp [setAt, h']
  | some e =>
    simp only [setAt, h']
    exact List.getElem?_set_ne (Ne.symm h)

lemma velPhase_getElem? (relax : ℝ) (accels : List vec3) :
    ∀ (k : ℕ) (es : List electron) (i : ℕ),
      (velPhase relax accels k es)[i]? =
        if i < k then es[i]?.map (velUpdate relax (accels.getD i 0))
        else es[i]? := by
  intro k
  induction k with
  | zero => intro es i; simp [velPhase]
  | succ k ih =>
    intro es i
    by_cases hik : i = k
    · subst hik
      simp only [velPhase, setAt_getElem?, ih]
      simp [Nat.lt_irrefl, Nat.lt_succ_self]
    · simp only [velPhase, setAt_getElem?_ne _ _ _ _ hik, ih]
      by_cases hlt : i < k
      · simp [hlt, Nat.lt_succ_of_lt hlt]
      · have h2 : ¬ i < k + 1 := by omega
        simp [hlt, h2]

lemma accelListAux_length (all : List electron) :
    ∀ (l : List electron) (i : ℕ), (accelListAux all l i).length = l.length := by
  intro l
  induction l with
  | nil => intro i; rfl
  | cons e rest ih => intro i; simp [accelListAux, ih]

lemma accelList_length (es : List electron) : (accelList es).length = es.length :=
  accelListAux_length es es 0

lemma step_fst_getElem? (relax : ℝ) (es : List electron) (i : ℕ) :
    ((step relax es).1)[i]? =
      es[i]?.map (fun e => posUpdate (velUpdate relax ((accelList es).getD i 0) e)) := by
  simp only [step, posPhase_fst, List.getElem?_map, velPhase_getElem?]
  by_cases h : i < es.length
  · simp [h]
  · have h1 : es[i]? = none := List.getElem?_eq_none (by omega)
    simp [h, h1]

lemma step_fst_length (relax : ℝ) (es : List electron) :
    (step relax es).1.length = es.length := by
  simp [step, posPhase_fst, velPhase_length]

lemma step_newPositions (relax : ℝ) (es : List electron) :
    (step relax es).2.2 = ((step relax es).1).map electron.pos := by
  simp [step, posPhase_fst, posPhase_snd_snd, List.map_map]

lemma stepIter_succ (relax : ℝ) :
    ∀ (k : ℕ) (es : List electron),
      stepIter relax (k + 1) es = (step relax (stepIter relax k es)).1 := by
  intro k
  induction k with
  | zero => intro es; rfl
  | succ k ih => intro es; exact ih (step relax es).1

lemma stepIter_length (relax : ℝ) :
    ∀ (k : ℕ) (es : List electron), (stepIter relax k es).length = es.length := by
  intro k
  induction k with
  | zero => intro es; rfl
  | succ k ih =>
    intro es
    show (stepIter relax k (step relax es).1).length = es.length
    rw [ih, step_fst_length]

lemma initElectrons_length (raws : ℕ → vec3) (n : ℕ) :
    (initElectrons raws n).length = n := by
  simp [initElectrons]

lemma loopState_length (raws : ℕ → vec3) (n : ℕ) (relax : ℝ) (k : ℕ) :
    (loopState raws n relax k).length = n := by
  rw [loopState, stepIter_length, initElectrons_length]

/-- Characterization of a terminating run of the while loop: the exiting
iteration is the `m`-th, its convergence test succeeds, every earlier
iteration's convergence test fails, and the result is the exiting
iteration's `new_positions`. -/
lemma loopRun_spec {tol relax : ℝ} :
    ∀ {es : List electron} {m : ℕ} {res : List vec3}, LoopRun tol relax es m res →
      1 ≤ m ∧ convergedAfter tol relax (stepIter relax (m - 1) es)
      ∧ (∀ j, j + 1 < m → ¬ convergedAfter tol relax (stepIter relax j es))
      ∧ res = (step relax (stepIter relax (m - 1) es)).2.2 := by
  intro es m res h
  induction h with
  | done es hc =>
    refine ⟨le_refl 1, hc, ?_, rfl⟩
    intro j hj
    omega
  | more es m res hnc h ih =>
    obtain ⟨hm, hc, hprev, hres⟩ := ih
    have key : stepIter relax (m + 1 - 1) es = stepIter relax (m - 1) (step relax es).1 := by
      obtain ⟨m', rfl⟩ : ∃ m', m = m' + 1 := ⟨m - 1, by omega⟩
      rfl
    refine ⟨by omega, by rw [key]; exact hc, ?_, by rw [key]; exact hres⟩
    intro j hj
    cases j with
    | zero => exact hnc
    | succ j' =>
      have : j' + 1 < m := by omega
      exact hprev j' this

/-- The while loop is deterministic: a run from a given state exits after a
unique number of iterations with a unique result. -/
lemma loopRun_unique {tol relax : ℝ} :
    ∀ {es : List electron} {m : ℕ} {res : List vec3} {m' : ℕ} {res' : List vec3},
      LoopRun tol relax es m res → LoopRun tol relax es m' res' →
      m = m' ∧ res = res' := by
  intro es m res m' res' h1 h2
  induction h1 generalizing m' res' with
  | done es hc =>
    cases h2 with
    | done _ _ => exact ⟨rfl, rfl⟩
    | more _ _ _ hnc _ => exact absurd hc hnc
  | more es m res hnc h ih =>
    cases h2 with
    | done _ hc => exact absurd hc hnc
    | more _ m2 res2 _ h2' =>
      obtain ⟨he, hr⟩ := ih h2'
      exact ⟨by rw [he], hr⟩

lemma accelList_getElem?_eq (es : List electron) (i : ℕ) (h : i < es.length) :
    (accelList es)[i]? = some ((accelList es).getD i 0) := by
  have hl : i < (accelList es).length := by rw [accelList_length]; exact h
  rw [List.getElem?_eq_getElem hl, List.getD_eq_getElem _ _ hl]

/-- C5: each iteration observes a read-then-write barrier — every acceleration
is computed from the positions at the start of the iteration, so the in-place
loop body equals the two-phase version that computes all accelerations from an
immutable snapshot and then applies all velocity and position updates; the
displacement list likewise only depends on the snapshot and the two-phase
result. -/
theorem step_eq_twoPhase (relax : ℝ) (es : List electron) :
    (step relax es).1 = twoPhaseStep relax es
    ∧ (step relax es).2.1 =
        List.zipWith (fun e e' => mag (e'.pos - e.pos)) es (twoPhaseStep relax es) := by
  have hfst : (step relax es).1 = twoPhaseStep relax es := by
    apply List.ext_getElem?
    intro i
    rw [step_fst_getElem?, twoPhaseStep, List.getElem?_zipWith']
    by_cases h : i < es.length
    · rw [accelList_getElem?_eq es i h]
      cases h' : es[i]? <;> simp [h']
    · have h1 : es[i]? = none := List.getElem?_eq_none (by omega)
      simp [h1]
  refine ⟨hfst, ?_⟩
  apply List.ext_getElem?
  intro i
  have hsnd : (step relax es).2.1 =
      List.zipWith (fun o np => mag (np - o))
        ((velPhase relax (accelList es) es.length es).map electron.pos)
        ((velPhase relax (accelList es) es.length es).map (fun e => (posUpdate e).pos)) := by
    simp [step, posPhase_snd_fst, posPhase_snd_snd]
  rw [hsnd, ← hfst, List.getElem?_zipWith', List.getElem?_zipWith',
    List.getElem?_map, List.getElem?_map, step_fst_getElem?, velPhase_getElem?]
  by_cases h : i < es.length
  · cases h' : es[i]? <;> simp [h, h', velUpdate, posUpdate]
  · have h1 : es[i]? = none := List.getElem?_eq_none (by omega)
    simp [h, h1]

lemma totalAccelAux_eq (e : electron) (i : ℕ) :
    ∀ (l : List electron) (j : ℕ) (acc : vec3),
      totalAccelAux e i l j acc = acc + specSumFrom e i l j := by
  intro l
  induction l with
  | nil => intro j acc; simp [totalAccelAux, specSumFrom]
  | cons e2 rest ih =>
    intro j acc
    by_cases hj : j = i
    · simp [totalAccelAux, specSumFrom, hj, ih]
    · simp [totalAccelAux, specSumFrom, hj, ih, electron.calc_accel, add_assoc]

lemma accelListAux_getD (all : List electron) :
    ∀ (l : List electron) (i j : ℕ), i < l.length →
      (accelListAux all l j).getD i 0 = totalAccel (l.getD i eDefault) (j + i) all := by
  intro l
  induction l with
  | nil => intro i j h; simp at h
  | cons e rest ih =>
    intro i j h
    cases i with
    | zero => simp [accelListAux]
    | succ i' =>
      have h' : i' < rest.length := by simpa using h
      have hji : j + (i' + 1) = (j + 1) + i' := by omega
      simp only [accelListAux, List.getD_cons_succ, hji]
      exact ih i' (j + 1) h'

/-- C2: the total acceleration accumulated for the point-charge at index `i`
equals the sum over every other point-charge `e2` (self-interaction excluded)
of `normalize(e.position - e2.position)` scaled by
`1 / |e.position - e2.position|^2`. -/
theorem totalAccel_eq_pairwise_sum (es : List electron) (i : ℕ) (h : i < es.length) :
    (accelList es).getD i 0 = specSumFrom (es.getD i eDefault) i es 0 := by
  rw [accelList, accelListAux_getD es es i 0 h, Nat.zero_add, totalAccel, totalAccelAux_eq]
  simp

/-- C1: if solve_thomson returns, it returns after the first iteration in which
every point-charge's displacement is strictly below the tolerance; every
earlier iteration has at least one displacement greater than or equal to the
tolerance; and the returned value is the final iteration's post-update
positions. -/
theorem solve_returns_first_convergence (raws : ℕ → vec3) (n : ℕ) (tol relax : ℝ)
    (m : ℕ) (res : List vec3) (h : solveReturns raws n tol relax m res) :
    convergedAfter tol relax (loopState raws n relax (m - 1))
    ∧ (∀ j, j + 1 < m → ∃ d ∈ (step relax (loopState raws n relax j)).2.1, tol ≤ d)
    ∧ res = (step relax (loopState raws n relax (m - 1))).2.2 := by
  obtain ⟨hm, hc, hprev, hres⟩ := loopRun_spec h
  refine ⟨hc, ?_, hres⟩
  intro j hj
  have hnc := hprev j hj
  rw [convergedAfter] at hnc
  push_neg at hnc
  obtain ⟨d, hd, hge⟩ := hnc
  exact ⟨d, hd, hge⟩

/-- C7: calc_accel applies an unguarded division whose denominator
`|e.pos - e2.pos|^2` vanishes exactly when the two positions coincide; under
pairwise-distinct positions the denominator is nonzero and the computation is
well-defined. -/
theorem calc_accel_denominator (e e2 : electron) :
    electron.calc_accel e e2
      = normalized (e.pos - e2.pos) * (1 / mag (e.pos - e2.pos) ^ 2)
    ∧ (mag (e.pos - e2.pos) ^ 2 = 0 ↔ e.pos = e2.pos) := by
  refine ⟨rfl, ?_⟩
  rw [pow_eq_zero_iff (by norm_num : 2 ≠ 0), mag_eq_zero_iff, sub_eq_zero]

lemma step_fst_getD (relax : ℝ) (es : List electron) (i : ℕ) (h : i < es.length) :
    (step relax es).1.getD i eDefault
      = posUpdate (velUpdate relax ((accelList es).getD i 0) (es.getD i eDefault)) := by
  have h2 : i < (step relax es).1.length := by rw [step_fst_length]; exact h
  have hsome := step_fst_getElem? relax es i
  rw [List.getElem?_eq_getElem h2, List.getElem?_eq_getElem h] at hsome
  simp only [Option.map_some'] at hsome
  rw [List.getD_eq_getElem _ _ h2, List.getD_eq_getElem _ _ h]
  exact Option.some.inj hsome

/-- C4 (amended): after every completed iteration, each point-charge's velocity
is orthogonal to its normalized pre-update position — the position it had at
the start of that iteration, against which Step 4's radial projection was
performed (not the renormalized post-update position). -/
theorem tangency_pre_update_position (raws : ℕ → vec3) (n : ℕ) (relax : ℝ) (k i : ℕ) :
    dot (((loopState raws n relax (k + 1)).getD i eDefault).vel)
        (normalized (((loopState raws n relax k).getD i eDefault).pos)) = 0 := by
  have hstate : loopState raws n relax (k + 1)
      = (step relax (loopState raws n relax k)).1 := by
    rw [loopState, loopState, stepIter_succ]
  rw [hstate]
  by_cases h : i < (loopState raws n relax k).length
  · rw [step_fst_getD relax _ i h]
    simp only [posUpdate, velUpdate]
    exact proj_dot _ _
  · push_neg at h
    have h2 : (step relax (loopState raws n relax k)).1.length ≤ i := by
      rw [step_fst_length]; exact h
    rw [List.getD_eq_default _ _ h2, List.getD_eq_default _ _ h]
    simp [eDefault, normalized_zero]

/-- The value a terminating run returns is the list of the final electron
positions, in list order. -/
lemma loopRun_res_positions {raws : ℕ → vec3} {n : ℕ} {tol relax : ℝ}
    {m : ℕ} {res : List vec3} (h : solveReturns raws n tol relax m res) :
    res = (loopState raws n relax m).map electron.pos := by
  obtain ⟨hm, hc, hprev, hres⟩ := loopRun_spec h
  rw [hres, step_newPositions]
  congr 1
  rw [loopState]
  obtain ⟨m', rfl⟩ : ∃ m', m = m' + 1 := ⟨m - 1, by omega⟩
  rw [stepIter_succ]
  simp

/-- C3: when every raw initial vector is nonzero, every point-charge's position
has magnitude 1 after initialization and after every completed iteration (each
of which only normalizes nonzero vectors), and therefore every returned
position is a unit vector. -/
theorem positions_unit (raws : ℕ → vec3) (n : ℕ) (relax : ℝ)
    (h0 : ∀ i, i < n → raws i ≠ 0) :
    (∀ k, (∀ j, j < k → nondegenerate relax (loopState raws n relax j)) →
        ∀ e ∈ loopState raws n relax k, mag e.pos = 1)
    ∧ (∀ tol m res, solveReturns raws n tol relax m res →
        (∀ j, j < m → nondegenerate relax (loopState raws n relax j)) →
        ∀ p ∈ res, mag p = 1) := by
  have hall : ∀ k, (∀ j, j < k → nondegenerate relax (loopState raws n relax j)) →
      ∀ e ∈ loopState raws n relax k, mag e.pos = 1 := by
    intro k hnd e he
    cases k with
    | zero =>
      simp only [loopState, stepIter, initElectrons, List.mem_map, List.mem_range] at he
      obtain ⟨i, hi, rfl⟩ := he
      exact mag_normalized _ (h0 i hi)
    | succ k =>
      have hstate : loopState raws n relax (k + 1)
          = (step relax (loopState raws n relax k)).1 := by
        rw [loopState, loopState, stepIter_succ]
      rw [hstate] at he
      have hnd' := hnd k (Nat.lt_succ_self k)
      rw [nondegenerate] at hnd'
      simp only [step, posPhase_fst, List.mem_map] at he
      obtain ⟨e1, he1, rfl⟩ := he
      exact mag_normalized _ (hnd' e1 he1)
  refine ⟨hall, ?_⟩
  intro tol m res hrun hnd p hp
  rw [loopRun_res_positions hrun] at hp
  simp only [List.mem_map] at hp
  obtain ⟨e, he, rfl⟩ := hp
  exact hall m hnd e he

/-- C9: the returned value is a sequence of exactly `n` position vectors, the
`i`-th being the final position of the `i`-th point-charge created during
initialization (positions in creation order, not velocities). -/
theorem result_length_order (raws : ℕ → vec3) (n : ℕ) (tol relax : ℝ)
    (m : ℕ) (res : List vec3) (h : solveReturns raws n tol relax m res) :
    res.length = n ∧ res = (loopState raws n relax m).map electron.pos := by
  have hres := loopRun_res_positions h
  refine ⟨?_, hres⟩
  rw [hres, List.length_map, loopState_length]

lemma velUpdate_zero_accel (relax : ℝ) (e : electron) (hv : e.vel = 0) :
    velUpdate relax 0 e = e := by
  have h1 : e.vel + ((0 : vec3) - (0 : vec3) * (0.9 : ℝ)) * relax = 0 := by
    rw [hv]; simp
  ext <;> simp [velUpdate, h1, hv]

lemma velUpdate_relax_zero (a : vec3) (e : electron) (hv : e.vel = 0) :
    velUpdate 0 a e = e := by
  have h1 : e.vel + (a - a * (0.9 : ℝ)) * (0 : ℝ) = 0 := by
    rw [hv]; simp
  ext <;> simp [velUpdate, h1, hv]

lemma list_set_of_getElem? :
    ∀ (es : List electron) (i : ℕ) (e : electron), es[i]? = some e → es.set i e = es := by
  intro es
  induction es with
  | nil => intro i e h; cases h
  | cons a rest ih =>
    intro i e h
    cases i with
    | zero =>
      simp only [List.getElem?_cons_zero, Option.some.injEq] at h
      simp [h]
    | succ i' =>
      simp only [List.getElem?_cons_succ] at h
      simp [ih i' e h]

lemma setAt_id (es : List electron) (i : ℕ) (f : electron → electron)
    (h : ∀ e ∈ es, f e = e) : setAt es i f = es := by
  cases h' : es[i]? with
  | none => simp [setAt, h']
  | some e =>
    have hm : e ∈ es := List.getElem?_mem h'
    simp only [setAt, h', h e hm]
    exact list_set_of_getElem? es i e h'

lemma velPhase_frozen (accels : List vec3) (es : List electron)
    (hv : ∀ e ∈ es, e.vel = 0) : ∀ k, velPhase 0 accels k es = es := by
  intro k
  induction k with
  | zero => rfl
  | succ k ih =>
    simp only [velPhase, ih]
    exact setAt_id es k _ (fun e he => velUpdate_relax_zero _ e (hv e he))

lemma posPhase_frozen :
    ∀ es : List electron, (∀ e ∈ es, mag e.pos = 1 ∧ e.vel = 0) →
      posPhase es = (es, es.map electron.pos, es.map electron.pos) := by
  intro es
  induction es with
  | nil => intro h; rfl
  | cons e rest ih =>
    intro h
    have he := h e (List.mem_cons_self e rest)
    have hrest := ih (fun e' he' => h e' (List.mem_cons_of_mem _ he'))
    have hup : posUpdate e = e := by
      have h1 : e.pos + e.vel = e.pos := by rw [he.2]; simp
      rw [posUpdate, h1, normalized_of_mag_one _ he.1]
    simp [posPhase, hrest, hup]

lemma zipWith_mag_same (l : List vec3) :
    List.zipWith (fun o np => mag (np - o)) l l = l.map (fun _ => (0 : ℝ)) := by
  induction l with
  | nil => rfl
  | cons v rest ih => simp [ih, mag_zero]

lemma step_frozen (es : List electron)
    (h : ∀ e ∈ es, mag e.pos = 1 ∧ e.vel = 0) :
    step 0 es = (es, es.map (fun _ => (0 : ℝ)), es.map electron.pos) := by
  have hv : ∀ e ∈ es, e.vel = 0 := fun e he => (h e he).2
  simp only [step, velPhase_frozen _ es hv, posPhase_frozen es h]
  rw [zipWith_mag_same (es.map electron.pos), List.map_map]
  rfl

/-- C10: with n = 0 and any tolerance (even a non-positive one), the solver
performs exactly one iteration — the convergence check over the empty
displacement list holds vacuously — and returns the empty sequence. -/
theorem solve_n0_returns_empty (raws : ℕ → vec3) (tol relax : ℝ) :
    solveReturns raws 0 tol relax 1 []
    ∧ ∀ m res, solveReturns raws 0 tol relax m res → m = 1 ∧ res = [] := by
  have hconv : convergedAfter tol relax [] := by
    intro d hd
    simp [step, accelList, accelListAux, velPhase, posPhase] at hd
  have hrun : LoopRun tol relax ([] : List electron) 1 ((step relax []).2.2) :=
    LoopRun.done [] hconv
  have h22 : (step relax ([] : List electron)).2.2 = [] := rfl
  rw [h22] at hrun
  exact ⟨hrun, fun m res hr => loopRun_unique hr hrun⟩

lemma step_singleton (relax : ℝ) (p : vec3) (hp : mag p = 1) :
    step relax [(⟨p, 0⟩ : electron)] = ([⟨p, 0⟩], [0], [p]) := by
  have haccel : accelList [(⟨p, 0⟩ : electron)] = [0] := by
    simp [accelList, accelListAux, totalAccel, totalAccelAux]
  have hvu : velUpdate relax (0 : vec3) (⟨p, 0⟩ : electron) = ⟨p, 0⟩ :=
    velUpdate_zero_accel relax _ rfl
  have hvel : velPhase relax [0] 1 [(⟨p, 0⟩ : electron)] = [⟨p, 0⟩] := by
    apply List.ext_getElem?
    intro i
    rw [velPhase_getElem?]
    cases i with
    | zero => simp [hvu]
    | succ i' => simp
  have hpos : posUpdate (⟨p, 0⟩ : electron) = ⟨p, 0⟩ := by
    have h1 : p + (0 : vec3) = p := by simp
    rw [posUpdate, h1, normalized_of_mag_one _ hp]
  have hpp : posPhase [(⟨p, 0⟩ : electron)] = ([⟨p, 0⟩], [p], [p]) := by
    simp [posPhase, hpos]
  simp only [step, haccel, List.length_singleton, hvel, hpp]
  simp [mag_zero]

/-- A solve with a single electron and a nonzero raw draw exits after its
first iteration, returning the renormalized initial position. -/
lemma solve_n1_run (raws : ℕ → vec3) (tol relax : ℝ)
    (h0 : raws 0 ≠ 0) (htol : 0 < tol) :
    solveReturns raws 1 tol relax 1 [normalized (raws 0)] := by
  have hinit : initElectrons raws 1 = [⟨normalized (raws 0), 0⟩] := by
    simp [initElectrons, List.range_succ]
  have hp : mag (normalized (raws 0)) = 1 := mag_normalized _ h0
  have hstep := step_singleton relax (normalized (raws 0)) hp
  have hconv : convergedAfter tol relax [⟨normalized (raws 0), 0⟩] := by
    rw [convergedAfter, hstep]
    intro d hd
    simp only [List.mem_singleton] at hd
    rw [hd]
    exact htol
  have hrun : LoopRun tol relax [(⟨normalized (raws 0), 0⟩ : electron)] 1
      [normalized (raws 0)] := by
    have h22 : (step relax [(⟨normalized (raws 0), 0⟩ : electron)]).2.2
        = [normalized (raws 0)] := by rw [hstep]
    rw [← h22]
    exact LoopRun.done _ hconv
  rw [solveReturns, hinit]
  exact hrun

/-- C8: with n = 1 (and a nonzero raw draw), the single point-charge receives
zero net force and zero displacement, so solve_thomson terminates after
exactly one iteration and returns the one-element list holding the point's
renormalized random initial position. -/
theorem solve_n1_returns_initial (raws : ℕ → vec3) (tol relax : ℝ)
    (h0 : raws 0 ≠ 0) (htol : 0 < tol) :
    solveReturns raws 1 tol relax 1 [normalized (raws 0)]
    ∧ ∀ m res, solveReturns raws 1 tol relax m res →
        m = 1 ∧ res = [normalized (raws 0)] := by
  have hrun' := solve_n1_run raws tol relax h0 htol
  exact ⟨hrun', fun m res hr => loopRun_unique hr hrun'⟩

/-- C6 (amended): with relaxation_factor = 0 the system is indeed frozen — no
point-charge ever moves — but precisely because nothing moves every
displacement is 0, which is strictly below any positive tolerance, so the
convergence check passes at once and solve_thomson returns after the first
iteration with the initial (normalized) positions; it does not loop forever. -/
theorem relaxation_zero_frozen_converges (raws : ℕ → vec3) (n : ℕ) (tol : ℝ)
    (h0 : ∀ i, i < n → raws i ≠ 0) (htol : 0 < tol) :
    (∀ k, loopState raws n 0 k = initElectrons raws n)
    ∧ solveReturns raws n tol 0 1 ((initElectrons raws n).map electron.pos)
    ∧ (∀ m res, solveReturns raws n tol 0 m res →
        m = 1 ∧ res = (initElectrons raws n).map electron.pos) := by
  have hpre : ∀ e ∈ initElectrons raws n, mag e.pos = 1 ∧ e.vel = 0 := by
    intro e he
    simp only [initElectrons, List.mem_map, List.mem_range] at he
    obtain ⟨i, hi, rfl⟩ := he
    exact ⟨mag_normalized _ (h0 i hi), rfl⟩
  have hstep := step_frozen _ hpre
  have hconv : convergedAfter tol 0 (initElectrons raws n) := by
    rw [convergedAfter, hstep]
    intro d hd
    simp only [List.mem_map] at hd
    obtain ⟨e, he, rfl⟩ := hd
    exact htol
  have hrun : solveReturns raws n tol 0 1 ((initElectrons raws n).map electron.pos) := by
    have h22 : (step 0 (initElectrons raws n)).2.2
        = (initElectrons raws n).map electron.pos := by rw [hstep]
    rw [solveReturns, ← h22]
    exact LoopRun.done _ hconv
  refine ⟨?_, hrun, fun m res hr => loopRun_unique hr hrun⟩
  intro k
  induction k with
  | zero => rfl
  | succ k ih =>
    have : loopState raws n 0 (k + 1) = (step 0 (loopState raws n 0 k)).1 := by
      rw [loopState, loopState, stepIter_succ]
    rw [this, ih]
    rw [hstep]

/-- Concrete raw draw: a unit vector with rational coordinates. -/
noncomputable def p0c : vec3 := ⟨3 / 5, 4 / 5, 0⟩

/-- Concrete raw draw: the mirror image of `p0c` below the equator. -/
noncomputable def p1c : vec3 := ⟨3 / 5, -(4 / 5), 0⟩

/-- Concrete two-electron raw random stream. -/
noncomputable def raws2 : ℕ → vec3 := fun i => if i = 0 then p0c else p1c

/-- Concrete raw draw used in single-electron runs. -/
noncomputable def v100 : vec3 := ⟨1, 0, 0⟩

/-- Concrete single-electron raw random stream. -/
noncomputable def raws1 : ℕ → vec3 := fun _ => v100

lemma mag_p0c : mag p0c = 1 := by
  have h : p0c.x ^ 2 + p0c.y ^ 2 + p0c.z ^ 2 = 1 := by norm_num [p0c]
  rw [mag, h, Real.sqrt_one]

lemma mag_p1c : mag p1c = 1 := by
  have h : p1c.x ^ 2 + p1c.y ^ 2 + p1c.z ^ 2 = 1 := by norm_num [p1c]
  rw [mag, h, Real.sqrt_one]

lemma mag_v100 : mag v100 = 1 := by
  have h : v100.x ^ 2 + v100.y ^ 2 + v100.z ^ 2 = 1 := by norm_num [v100]
  rw [mag, h, Real.sqrt_one]

lemma p0c_ne_zero : p0c ≠ 0 := by
  intro h
  have hx := congrArg vec3.x h
  norm_num [p0c] at hx

lemma p1c_ne_zero : p1c ≠ 0 := by
  intro h
  have hx := congrArg vec3.x h
  norm_num [p1c] at hx

lemma v100_ne_zero : v100 ≠ 0 := by
  intro h
  have hx := congrArg vec3.x h
  norm_num [v100] at hx

lemma raws2_ne_zero : ∀ i, i < 2 → raws2 i ≠ 0 := by
  intro i _
  by_cases h : i = 0
  · simpa [raws2, h] using p0c_ne_zero
  · simpa [raws2, h] using p1c_ne_zero

lemma init_raws2 : initElectrons raws2 2 = [⟨p0c, 0⟩, ⟨p1c, 0⟩] := by
  have h0 : normalized (raws2 0) = p0c := by
    simp only [raws2, if_pos rfl]
    exact normalized_of_mag_one _ mag_p0c
  have h1 : normalized (raws2 1) = p1c := by
    simp only [raws2, if_neg (by norm_num : (1 : ℕ) ≠ 0)]
    exact normalized_of_mag_one _ mag_p1c
  simp [initElectrons, List.range_succ, h0, h1]

/-- C6 counterexample: with relaxation_factor = 0 (n = 2, tolerance = 1/2,
concrete unit raw draws) the solver does return — after a single iteration —
so the claim that it never converges and never returns is false. -/
theorem relaxation_zero_returns_counterexample :
    solveReturns raws2 2 (1 / 2) 0 1 [p0c, p1c] := by
  have hpre : ∀ e ∈ [(⟨p0c, 0⟩ : electron), ⟨p1c, 0⟩], mag e.pos = 1 ∧ e.vel = 0 := by
    intro e he
    simp only [List.mem_cons, List.mem_singleton] at he
    rcases he with rfl | rfl | he
    · exact ⟨mag_p0c, rfl⟩
    · exact ⟨mag_p1c, rfl⟩
    · cases he
  have hstep := step_frozen _ hpre
  have hconv : convergedAfter (1 / 2) 0 [(⟨p0c, 0⟩ : electron), ⟨p1c, 0⟩] := by
    rw [convergedAfter, hstep]
    intro d hd
    simp only [List.map_cons, List.map_nil, List.mem_cons, List.mem_singleton] at hd
    rcases hd with rfl | rfl | hd
    · norm_num
    · norm_num
    · cases hd
  have h22 : (step 0 [(⟨p0c, 0⟩ : electron), ⟨p1c, 0⟩]).2.2 = [p0c, p1c] := by
    rw [hstep]
    rfl
  rw [solveReturns, init_raws2, ← h22]
  exact LoopRun.done _ hconv

/-- Velocity of electron 0 after one iteration of the concrete two-electron
run (computed by hand from the damped, projected update). -/
noncomputable def vtan : vec3 := ⟨-(3 / 160), 9 / 640, 0⟩

/-- Position of electron 0 after adding `vtan`, before renormalization, in the
concrete two-electron run. -/
noncomputable def wpre : vec3 := ⟨93 / 160, 521 / 640, 0⟩

lemma vel_update_concrete :
    velUpdate 1 (⟨0, 25 / 64, 0⟩ : vec3) (⟨p0c, 0⟩ : electron) = ⟨p0c, vtan⟩ := by
  have hnp : normalized p0c = p0c := normalized_of_mag_one _ mag_p0c
  simp only [velUpdate, hnp]
  ext <;> simp [dot, p0c, vtan] <;> norm_num

lemma calc_accel_concrete :
    electron.calc_accel (⟨p0c, 0⟩ : electron) (⟨p1c, 0⟩ : electron)
      = ⟨0, 25 / 64, 0⟩ := by
  have hd : (⟨p0c, 0⟩ : electron).pos - (⟨p1c, 0⟩ : electron).pos = ⟨0, 8 / 5, 0⟩ := by
    ext <;> simp [p0c, p1c] <;> norm_num
  have hm : mag (⟨0, 8 / 5, 0⟩ : vec3) = 8 / 5 := by
    have h : (⟨0, 8 / 5, 0⟩ : vec3).x ^ 2 + (⟨0, 8 / 5, 0⟩ : vec3).y ^ 2
        + (⟨0, 8 / 5, 0⟩ : vec3).z ^ 2 = (8 / 5 : ℝ) ^ 2 := by norm_num
    rw [mag, h, Real.sqrt_sq (by norm_num : (0 : ℝ) ≤ 8 / 5)]
  rw [electron.calc_accel, hd, hm, normalized, hm]
  ext <;> simp <;> norm_num

lemma accel_concrete :
    (accelList [(⟨p0c, 0⟩ : electron), ⟨p1c, 0⟩]).getD 0 0
      = electron.calc_accel (⟨p0c, 0⟩ : electron) (⟨p1c, 0⟩ : electron) := by
  simp [accelList, accelListAux, totalAccel, totalAccelAux]

lemma final_electron_concrete :
    (loopState raws2 2 1 1).getD 0 eDefault = ⟨normalized wpre, vtan⟩ := by
  have hls : loopState raws2 2 1 1 = (step 1 (initElectrons raws2 2)).1 := rfl
  rw [hls, init_raws2]
  rw [step_fst_getD 1 _ 0 (by simp)]
  have hget : ([(⟨p0c, 0⟩ : electron), ⟨p1c, 0⟩]).getD 0 eDefault = ⟨p0c, 0⟩ := rfl
  rw [hget, accel_concrete, calc_accel_concrete, vel_update_concrete]
  have hwv : p0c + vtan = wpre := by
    ext <;> simp [p0c, vtan, wpre] <;> norm_num
  simp only [posUpdate]
  rw [hwv]

/-- C4 counterexample: in a concrete two-electron run, after the first
completed iteration, electron 0's velocity has a nonzero dot product with its
normalized end-of-iteration position — the projection was performed against
the pre-update position, so tangency to the post-update position fails. -/
theorem tangency_end_position_counterexample :
    dot (((loopState raws2 2 1 1).getD 0 eDefault).vel)
        (normalized (((loopState raws2 2 1 1).getD 0 eDefault).pos)) ≠ 0 := by
  rw [final_electron_concrete]
  show dot vtan (normalized (normalized wpre)) ≠ 0
  have hwne : wpre ≠ 0 := by
    intro h
    have hx := congrArg vec3.x h
    norm_num [wpre] at hx
  rw [normalized_of_mag_one _ (mag_normalized _ hwne)]
  rw [normalized, dot_smul_right]
  have hdv : dot vtan wpre = 225 / 409600 := by norm_num [dot, vtan, wpre]
  rw [hdv]
  have hmw : 0 < mag wpre := mag_pos _ hwne
  intro hc
  rcases mul_eq_zero.mp hc with h | h
  · norm_num at h
  · exact (one_div_ne_zero (ne_of_gt hmw)) h

/-- Witness for C1 at a concrete single-electron run. -/
theorem solve_returns_first_convergence_witness :
    solveReturns raws1 1 1 1 1 [v100]
    ∧ (convergedAfter 1 1 (loopState raws1 1 1 (1 - 1))
       ∧ (∀ j, j + 1 < 1 → ∃ d ∈ (step 1 (loopState raws1 1 1 j)).2.1, 1 ≤ d)
       ∧ [v100] = (step 1 (loopState raws1 1 1 (1 - 1))).2.2) := by
  have hrun : solveReturns raws1 1 1 1 1 [v100] := by
    have h := solve_n1_run raws1 1 1 v100_ne_zero (by norm_num)
    rw [show raws1 0 = v100 from rfl, normalized_of_mag_one _ mag_v100] at h
    exact h
  exact ⟨hrun, solve_returns_first_convergence raws1 1 1 1 1 [v100] hrun⟩

/-- Witness for C2 at a concrete two-electron list. -/
theorem totalAccel_eq_pairwise_sum_witness :
    0 < ([(⟨p0c, 0⟩ : electron), ⟨p1c, 0⟩] : List electron).length
    ∧ (accelList [(⟨p0c, 0⟩ : electron), ⟨p1c, 0⟩]).getD 0 0
       = specSumFrom (([(⟨p0c, 0⟩ : electron), ⟨p1c, 0⟩]).getD 0 eDefault) 0
           [(⟨p0c, 0⟩ : electron), ⟨p1c, 0⟩] 0 :=
  ⟨by simp, totalAccel_eq_pairwise_sum _ 0 (by simp)⟩

/-- Witness for C3 at a concrete single-electron stream. -/
theorem positions_unit_witness :
    (∀ i, i < 1 → raws1 i ≠ 0)
    ∧ ((∀ k, (∀ j, j < k → nondegenerate 1 (loopState raws1 1 1 j)) →
          ∀ e ∈ loopState raws1 1 1 k, mag e.pos = 1)
       ∧ (∀ tol m res, solveReturns raws1 1 tol 1 m res →
          (∀ j, j < m → nondegenerate 1 (loopState raws1 1 1 j)) →
          ∀ p ∈ res, mag p = 1)) := by
  have h0 : ∀ i, i < 1 → raws1 i ≠ 0 := fun i _ => v100_ne_zero
  exact ⟨h0, positions_unit raws1 1 1 h0⟩

/-- Witness for C6 (amended) at the concrete two-electron stream. -/
theorem relaxation_zero_frozen_converges_witness :
    (∀ i, i < 2 → raws2 i ≠ 0) ∧ (0 : ℝ) < 1 / 2
    ∧ ((∀ k, loopState raws2 2 0 k = initElectrons raws2 2)
       ∧ solveReturns raws2 2 (1 / 2) 0 1 ((initElectrons raws2 2).map electron.pos)
       ∧ (∀ m res, solveReturns raws2 2 (1 / 2) 0 m res →
           m = 1 ∧ res = (initElectrons raws2 2).map electron.pos)) :=
  ⟨raws2_ne_zero, by norm_num,
    relaxation_zero_frozen_converges raws2 2 (1 / 2) raws2_ne_zero (by norm_num)⟩

/-- Witness for C8 at the concrete single-electron stream. -/
theorem solve_n1_returns_initial_witness :
    raws1 0 ≠ 0 ∧ (0 : ℝ) < 1
    ∧ (solveReturns raws1 1 1 1 1 [normalized (raws1 0)]
       ∧ ∀ m res, solveReturns raws1 1 1 1 m res →
           m = 1 ∧ res = [normalized (raws1 0)]) :=
  ⟨v100_ne_zero, by norm_num,
    solve_n1_returns_initial raws1 1 1 v100_ne_zero (by norm_num)⟩

/-- Witness for C9 at a concrete single-electron run. -/
theorem result_length_order_witness :
    solveReturns raws1 1 1 1 1 [v100]
    ∧ ([v100] : List vec3).length = 1
    ∧ [v100] = (loopState raws1 1 1 1).map electron.pos := by
  have hrun : solveReturns raws1 1 1 1 1 [v100] := by
    have h := solve_n1_run raws1 1 1 v100_ne_zero (by norm_num)
    rw [show raws1 0 = v100 from rfl, normalized_of_mag_one _ mag_v100] at h
    exact h
  have h2 := result_length_order raws1 1 1 1 1 [v100] hrun
  exact ⟨hrun, h2.1, h2.2⟩

/-- Witness for C10: a zero-electron solve returns the empty list after one
iteration. -/
theorem solve_n0_returns_empty_witness :
    solveReturns raws1 0 1 1 1 ([] : List vec3) ∧ (1 = 1 ∧ ([] : List vec3) = []) := by
  have h := solve_n0_returns_empty raws1 1 1
  exact ⟨h.1, h.2 1 [] h.1⟩
